import Mathlib

/-!
Verification of the coro-first-io benchmark core (cppalliance/wg21-papers,
src/coro-first-io): the intrusive work queue and unified executor
(bench.hpp), the single-slot operation cache and callback operation chains
(bench_cb.hpp), and the two-tier frame pool, promise allocator mixin and
coroutine owner (bench_co_detail.hpp).

Pointers are modelled as natural-number addresses; `none` models `nullptr`.
-/

namespace Bench

/-! ### Intrusive work queue (bench.hpp, `struct work` / `struct work_queue`)

A `work` item carries an intrusive `next_` pointer, default-initialised to
`nullptr`.  The queue state is the heap of `next_` fields together with the
`head_` and `tail_` pointers. -/

structure WorkQueue where
  next : Nat → Option Nat
  head : Option Nat
  tail : Option Nat

/-- `work_queue::empty`: `head_ == nullptr`. -/
def WorkQueue.emptyq (q : WorkQueue) : Bool :=
  q.head.isNone

/-- `work_queue::push`: if `tail_` is non-null, write `tail_->next_ = p` and
set `tail_ = p`; otherwise set `head_ = tail_ = p`.  The pushed item's own
`next_` field is not written. -/
def WorkQueue.push (q : WorkQueue) (p : Nat) : WorkQueue :=
  match q.tail with
  | some t =>
      { q with next := fun a => if a = t then some p else q.next a, tail := some p }
  | none => { q with head := some p, tail := some p }

/-- `work_queue::pop`: if `head_` is non-null, advance `head_ = head_->next_`,
clear `tail_` when the queue became empty, and return the old head.  The
returned item's `next_` field is left untouched. -/
def WorkQueue.pop (q : WorkQueue) : Option Nat × WorkQueue :=
  match q.head with
  | some p =>
      (some p,
        { q with
          head := q.next p
          tail := if (q.next p).isNone then none else q.tail })
  | none => (none, q)

/-- A freshly constructed queue: no items, and every work item's `next_`
field still holds its `nullptr` default initialiser. -/
def WorkQueue.init : WorkQueue :=
  { next := fun _ => none, head := none, tail := none }

theorem push_eq_of_tail_some {q : WorkQueue} {t : Nat} (h : q.tail = some t)
    (p : Nat) :
    q.push p =
      { q with next := fun a => if a = t then some p else q.next a, tail := some p } := by
  simp [WorkQueue.push, h]

theorem push_eq_of_tail_none {q : WorkQueue} (h : q.tail = none) (p : Nat) :
    q.push p = { q with head := some p, tail := some p } := by
  simp [WorkQueue.push, h]

theorem pop_eq_of_head_some {q : WorkQueue} {p : Nat} (h : q.head = some p) :
    q.pop = (some p,
      { q with
        head := q.next p
        tail := if (q.next p).isNone then none else q.tail }) := by
  simp [WorkQueue.pop, h]

theorem pop_eq_of_head_none {q : WorkQueue} (h : q.head = none) :
    q.pop = (none, q) := by
  simp [WorkQueue.pop, h]

/-- `isChain nx h l`: starting from pointer `h`, following the `next_` heap
`nx` visits exactly the addresses in `l` and ends at `nullptr`. -/
def isChain (nx : Nat → Option Nat) : Option Nat → List Nat → Prop
  | h, [] => h = none
  | h, p :: l => h = some p ∧ isChain nx (nx p) l

theorem isChain_nil {nx : Nat → Option Nat} {h : Option Nat} :
    isChain nx h [] ↔ h = none := Iff.rfl

theorem isChain_cons {nx : Nat → Option Nat} {h : Option Nat} {p : Nat}
    {l : List Nat} :
    isChain nx h (p :: l) ↔ h = some p ∧ isChain nx (nx p) l := Iff.rfl

theorem isChain_head {nx : Nat → Option Nat} {h : Option Nat} {l : List Nat}
    (hc : isChain nx h l) : h = l.head? := by
  cases l with
  | nil => exact hc
  | cons p l => exact hc.1

theorem mem_of_getLast?_eq {l : List Nat} {t : Nat}
    (h : l.getLast? = some t) : t ∈ l := by
  obtain ⟨hne, ht⟩ := List.mem_getLast?_eq_getLast (Option.mem_def.mpr h)
  rw [ht]
  exact List.getLast_mem hne

theorem isChain_extend {nx : Nat → Option Nat} {p t : Nat} :
    ∀ {h : Option Nat} {l : List Nat}, isChain nx h l → l.Nodup →
      l.getLast? = some t → p ∉ l → nx p = none →
      isChain (fun a => if a = t then some p else nx a) h (l ++ [p])
  | _, [], hc, _, hlast, _, _ => by
      rw [isChain_nil] at hc
      simp [hc] at hlast
  | h, [a], hc, _, hlast, hp, hfresh => by
      obtain ⟨h1, _⟩ := hc
      have hta : t = a := by simpa using hlast.symm
      subst hta
      have hpt : p ≠ t := fun he => hp (by simp [he])
      rw [List.singleton_append, isChain_cons]
      refine ⟨h1, ?_⟩
      rw [if_pos rfl, isChain_cons]
      exact ⟨rfl, by rw [isChain_nil, if_neg hpt]; exact hfresh⟩
  | h, a :: b :: l, hc, hnd, hlast, hp, hfresh => by
      obtain ⟨h1, h2⟩ := hc
      have hlast' : (b :: l).getLast? = some t :=
        (List.getLast?_cons_cons).symm.trans hlast
      have ht : t ∈ b :: l := mem_of_getLast?_eq hlast'
      have ha : a ∉ b :: l := (List.nodup_cons.mp hnd).1
      have hat : a ≠ t := fun he => ha (he ▸ ht)
      rw [List.cons_append, isChain_cons]
      refine ⟨h1, ?_⟩
      have := isChain_extend h2 (List.nodup_cons.mp hnd).2 hlast'
        (fun hm => hp (List.mem_cons_of_mem a hm)) hfresh
      simpa [hat] using this

/-- Queue/list representation invariant threaded through a run that pushes
fresh addresses drawn from a counter `c`. -/
def Inv (q : WorkQueue) (l : List Nat) (c : Nat) : Prop :=
  isChain q.next q.head l ∧ q.tail = l.getLast? ∧ l.Nodup ∧
    (∀ a ∈ l, a < c) ∧ (∀ a, c ≤ a → q.next a = none)

theorem Inv_push {q : WorkQueue} {l : List Nat} {c : Nat} (hI : Inv q l c) :
    Inv (q.push c) (l ++ [c]) (c + 1) := by
  obtain ⟨hc, htail, hnd, hbound, hfresh⟩ := hI
  have hcnotin : c ∉ l := fun hm => absurd (hbound c hm) (lt_irrefl c)
  have hnextc : q.next c = none := hfresh c le_rfl
  cases l with
  | nil =>
      have ht : q.tail = none := htail
      rw [push_eq_of_tail_none ht]
      refine ⟨?_, rfl, by simp, ?_, ?_⟩
      · rw [List.nil_append, isChain_cons]
        exact ⟨rfl, by rw [isChain_nil]; exact hnextc⟩
      · intro a ha; simp at ha; omega
      · intro a ha; exact hfresh a (by omega)
  | cons x l' =>
      obtain ⟨t, ht⟩ : ∃ t, (x :: l').getLast? = some t :=
        ⟨(x :: l').getLast (by simp),
          List.getLast?_eq_getLast_of_ne_nil (by simp)⟩
      have htmem : t ∈ x :: l' := mem_of_getLast?_eq ht
      have htailq : q.tail = some t := by rw [htail, ht]
      rw [push_eq_of_tail_some htailq]
      refine ⟨?_, ?_, ?_, ?_, ?_⟩
      · exact isChain_extend hc hnd ht hcnotin hnextc
      · rw [List.getLast?_concat]
      · refine List.Nodup.append hnd (by simp) ?_
        simp only [List.disjoint_singleton]
        exact hcnotin
      · intro a ha
        rcases List.mem_append.mp ha with h | h
        · exact lt_trans (hbound a h) (by omega)
        · simp at h; omega
      · intro a ha
        have hat : a ≠ t := by
          have := hbound t htmem; omega
        simp only [hat, if_false]
        exact hfresh a (by omega)

theorem Inv_pop {q : WorkQueue} {l : List Nat} {c : Nat} (hI : Inv q l c) :
    (q.pop).1 = l.head? ∧ Inv (q.pop).2 l.tail c := by
  obtain ⟨hc, htail, hnd, hbound, hfresh⟩ := hI
  cases l with
  | nil =>
      have hhead : q.head = none := hc
      rw [pop_eq_of_head_none hhead]
      exact ⟨rfl, hc, htail, hnd, hbound, hfresh⟩
  | cons p l' =>
      have h1 : q.head = some p := hc.1
      have h2 := hc.2
      rw [pop_eq_of_head_some h1]
      dsimp only
      cases l' with
      | nil =>
          have hnp : q.next p = none := h2
          refine ⟨rfl, ?_, ?_, by simp, by simp, hfresh⟩
          · simpa [isChain_nil] using hnp
          · simp [hnp]
      | cons b l'' =>
          have hnp : q.next p = some b := h2.1
          refine ⟨rfl, ?_, ?_, (List.nodup_cons.mp hnd).2, ?_, hfresh⟩
          · simpa [isChain_cons, hnp] using h2.2
          · simp [hnp, htail, List.getLast?_cons_cons]
          · intro a ha; exact hbound a (List.mem_cons_of_mem p ha)

/-! ### Operation traces: the pointer queue refines a functional FIFO list -/

inductive WQOp
  | pushOp
  | popOp
  | emptyOp
deriving DecidableEq

inductive WQObs
  | popped (r : Option Nat)
  | isEmp (b : Bool)
deriving DecidableEq

/-- Run a sequence of operations against the pointer-machine queue, pushing
freshly constructed items (addresses drawn from the counter, `next_` still
null) and recording each `pop`/`empty` observation. -/
def runQueue : List WQOp → WorkQueue → Nat → List WQObs
  | [], _, _ => []
  | WQOp.pushOp :: ops, q, c => runQueue ops (q.push c) (c + 1)
  | WQOp.popOp :: ops, q, c =>
      WQObs.popped (q.pop).1 :: runQueue ops (q.pop).2 c
  | WQOp.emptyOp :: ops, q, c => WQObs.isEmp q.emptyq :: runQueue ops q c

/-- Modelled from the spec: the abstract FIFO — items come back in exactly
the order pushed, and `empty` observes whether zero items are held. -/
def runSpec : List WQOp → List Nat → Nat → List WQObs
  | [], _, _ => []
  | WQOp.pushOp :: ops, l, c => runSpec ops (l ++ [c]) (c + 1)
  | WQOp.popOp :: ops, l, c => WQObs.popped l.head? :: runSpec ops l.tail c
  | WQOp.emptyOp :: ops, l, c => WQObs.isEmp l.isEmpty :: runSpec ops l c

theorem runQueue_eq_runSpec :
    ∀ (ops : List WQOp) (q : WorkQueue) (l : List Nat) (c : Nat),
      Inv q l c → runQueue ops q c = runSpec ops l c
  | [], _, _, _, _ => rfl
  | WQOp.pushOp :: ops, q, l, c, hI => by
      simp only [runQueue, runSpec]
      exact runQueue_eq_runSpec ops _ _ _ (Inv_push hI)
  | WQOp.popOp :: ops, q, l, c, hI => by
      obtain ⟨hobs, hI'⟩ := Inv_pop hI
      simp only [runQueue, runSpec, hobs]
      exact congrArg _ (runQueue_eq_runSpec ops _ _ _ hI')
  | WQOp.emptyOp :: ops, q, l, c, hI => by
      have hhead : q.head = l.head? := isChain_head hI.1
      have hemp : q.emptyq = l.isEmpty := by
        cases l with
        | nil => simp [WorkQueue.emptyq, hhead]
        | cons x l' => simp [WorkQueue.emptyq, hhead]
      simp only [runQueue, runSpec, hemp]
      exact congrArg _ (runQueue_eq_runSpec ops q l c hI)

/-- C5: For every sequence of push and pop operations on a WorkQueue starting
from the empty queue (with freshly constructed items), pop returns items in
exactly the order they were pushed, pop on an empty queue reports empty
(returns null), and empty() holds if and only if the queue currently holds
zero items. -/
theorem workQueue_fifo (ops : List WQOp) :
    runQueue ops WorkQueue.init 0 = runSpec ops [] 0 :=
  runQueue_eq_runSpec ops WorkQueue.init [] 0
    ⟨rfl, rfl, List.nodup_nil, fun a ha => absurd ha (List.not_mem_nil a),
      fun _ _ => rfl⟩

/-- C10: push never clears any item's intrusive next pointer — in particular
the pushed item's stale link survives — pop leaves every next pointer
(including the returned item's, still aimed at its former successor)
untouched, and pushing a single item 0 whose stale link aims at node 1
chains the queue into node 1: the first pop leaves the queue non-empty and
the second pop returns node 1, which was never pushed. -/
theorem workQueue_stale_link :
    (∀ (q : WorkQueue) (p a : Nat), q.next a ≠ none → (q.push p).next a ≠ none)
    ∧ (∀ q : WorkQueue, (q.pop).2.next = q.next)
    ∧ ((WorkQueue.push ⟨fun a => if a = 0 then some 1 else none, none, none⟩
          0).pop.2.emptyq = false
        ∧ (WorkQueue.push ⟨fun a => if a = 0 then some 1 else none, none, none⟩
            0).pop.2.pop.1 = some 1) := by
  refine ⟨?_, ?_, by constructor <;> rfl⟩
  · intro q p a hne
    rcases hq : q.tail with _ | t
    · rw [push_eq_of_tail_none hq]
      exact hne
    · rw [push_eq_of_tail_some hq]
      dsimp only
      by_cases hat : a = t
      · simp [hat]
      · simpa [hat] using hne
  · intro q
    rcases hq : q.head with _ | p
    · rw [pop_eq_of_head_none hq]
    · rw [pop_eq_of_head_some hq]

theorem workQueue_stale_link_witness :
    (WorkQueue.push ⟨fun _ => some 7, none, some 3⟩ 5).next 2 ≠ none :=
  workQueue_stale_link.1 ⟨fun _ => some 7, none, some 3⟩ 5 2 (by simp)

/-! ### Two-tier frame pool (bench_co_detail.hpp, `class frame_pool`)

Blocks are identified by an id and carry the recorded `size` field of the
`block` header; the free lists are LIFO lists of blocks.  The `nextId`
counter stands for the underlying general allocator handing out fresh
blocks (`::operator new`). -/

structure Block where
  id : Nat
  size : Nat
deriving DecidableEq

/-- `sizeof(frame_pool::block)`: a pointer plus a `std::size_t`, 8 bytes
each on the benchmark's 64-bit target. -/
def blockHeaderSize : Nat := 16

/-- The first-fit condition of `local_pool::pop` / `global_pool::pop`:
`block->size >= n + sizeof(block)` — the stored size is the total allocated
size, so the request is compared against `n + sizeof(block)`. -/
def fitsb (n : Nat) (b : Block) : Bool :=
  n + blockHeaderSize ≤ b.size

/-- `local_pool::pop` / `global_pool::pop`: scan the free list and unlink
the first block whose recorded total size is at least `n + sizeof(block)`;
return `none` when no block fits. -/
def poolPop (n : Nat) : List Block → Option (Block × List Block)
  | [] => none
  | b :: bs =>
      if n + blockHeaderSize ≤ b.size then some (b, bs)
      else
        match poolPop n bs with
        | some (r, bs') => some (r, b :: bs')
        | none => none

structure FramePool where
  localFree : List Block
  globalFree : List Block
  nextId : Nat
deriving DecidableEq

inductive AllocSource
  | fromLocal
  | fromGlobal
  | fromNew
deriving DecidableEq

/-- `frame_pool::allocate`: try the thread-local free list, then the global
free list under the lock, and otherwise obtain a fresh block of exactly
`n + sizeof(block)` bytes from `::operator new`, recording that total size
in the block header. -/
def framePoolAllocate (n : Nat) (s : FramePool) : Block × AllocSource × FramePool :=
  match poolPop n s.localFree with
  | some r => (r.1, AllocSource.fromLocal, { s with localFree := r.2 })
  | none =>
      match poolPop n s.globalFree with
      | some r => (r.1, AllocSource.fromGlobal, { s with globalFree := r.2 })
      | none =>
          (⟨s.nextId, n + blockHeaderSize⟩, AllocSource.fromNew,
            { s with nextId := s.nextId + 1 })

/-- `frame_pool::deallocate`: recover the block header (whose `size` field
already holds the true allocated size; the size parameter is ignored) and
push the block onto the freeing thread's local free list. -/
def framePoolDeallocate (b : Block) (_n : Nat) (s : FramePool) : FramePool :=
  { s with localFree := b :: s.localFree }

theorem poolPop_eq_find? (n : Nat) :
    ∀ l : List Block, (poolPop n l).map Prod.fst = l.find? (fitsb n)
  | [] => rfl
  | b :: bs => by
      by_cases hb : n + blockHeaderSize ≤ b.size
      · rw [poolPop, if_pos hb, List.find?_cons_of_pos]
        · rfl
        · exact decide_eq_true hb
      · rw [poolPop, if_neg hb, List.find?_cons_of_neg]
        · rcases hrec : poolPop n bs with _ | ⟨r, bs'⟩
          · have := poolPop_eq_find? n bs
            rw [hrec] at this
            exact this
          · have := poolPop_eq_find? n bs
            rw [hrec] at this
            exact this
        · simpa [fitsb] using hb

theorem poolPop_size {n : Nat} :
    ∀ {l : List Block} {b : Block} {l' : List Block},
      poolPop n l = some (b, l') → n + blockHeaderSize ≤ b.size
  | [], _, _, h => by simp [poolPop] at h
  | a :: bs, b, l', h => by
      by_cases ha : n + blockHeaderSize ≤ a.size
      · rw [poolPop, if_pos ha] at h
        obtain ⟨rfl, rfl⟩ := Prod.mk.injEq .. ▸ (Option.some.injEq .. ▸ h)
        exact ha
      · rw [poolPop, if_neg ha] at h
        rcases hrec : poolPop n bs with _ | ⟨r, bs'⟩
        · rw [hrec] at h; exact absurd h (by simp)
        · rw [hrec] at h
          obtain ⟨h1, _⟩ := Prod.mk.injEq .. ▸ (Option.some.injEq .. ▸ h)
          exact h1 ▸ poolPop_size hrec

theorem poolPop_sublist {n : Nat} :
    ∀ {l : List Block} {b : Block} {l' : List Block},
      poolPop n l = some (b, l') → l'.Sublist l
  | [], _, _, h => by simp [poolPop] at h
  | a :: bs, b, l', h => by
      by_cases ha : n + blockHeaderSize ≤ a.size
      · rw [poolPop, if_pos ha] at h
        obtain ⟨_, rfl⟩ := Prod.mk.injEq .. ▸ (Option.some.injEq .. ▸ h)
        exact List.sublist_cons_self a bs
      · rw [poolPop, if_neg ha] at h
        rcases hrec : poolPop n bs with _ | ⟨r, bs'⟩
        · rw [hrec] at h; exact absurd h (by simp)
        · rw [hrec] at h
          obtain ⟨_, h2⟩ := Prod.mk.injEq .. ▸ (Option.some.injEq .. ▸ h)
          rw [← h2]
          exact List.Sublist.cons₂ a (poolPop_sublist hrec)

/-- C1: allocate(n) first searches the thread-local free list first-fit and
returns the first block whose recorded total size is at least n plus the
header size; failing that, it searches the global free list with the same
comparison and returns a match; failing both, it obtains a fresh block of
exactly n plus the header size from the underlying general allocator,
recording that total size in the block. -/
theorem framePool_allocate_first_fit (n : Nat) (s : FramePool) :
    ((framePoolAllocate n s).2.1 = AllocSource.fromLocal →
      s.localFree.find? (fitsb n) = some (framePoolAllocate n s).1)
    ∧ ((framePoolAllocate n s).2.1 = AllocSource.fromGlobal →
      s.localFree.find? (fitsb n) = none ∧
        s.globalFree.find? (fitsb n) = some (framePoolAllocate n s).1)
    ∧ ((framePoolAllocate n s).2.1 = AllocSource.fromNew →
      s.localFree.find? (fitsb n) = none ∧
        s.globalFree.find? (fitsb n) = none ∧
        (framePoolAllocate n s).1.size = n + blockHeaderSize) := by
  have hl := poolPop_eq_find? n s.localFree
  have hg := poolPop_eq_find? n s.globalFree
  rcases hpl : poolPop n s.localFree with _ | ⟨b, l'⟩
  · rcases hpg : poolPop n s.globalFree with _ | ⟨c, g'⟩
    · rw [hpl] at hl
      rw [hpg] at hg
      simp [framePoolAllocate, hpl, hpg, hl.symm, hg.symm]
    · rw [hpl] at hl
      rw [hpg] at hg
      simp [framePoolAllocate, hpl, hpg, hl.symm, hg.symm]
  · rw [hpl] at hl
    simp [framePoolAllocate, hpl, hl.symm]

theorem framePool_allocate_first_fit_witness :
    ([⟨3, 4⟩, ⟨7, 100⟩] : List Block).find? (fitsb 4)
      = some (framePoolAllocate 4 ⟨[⟨3, 4⟩, ⟨7, 100⟩], [], 5⟩).1 :=
  (framePool_allocate_first_fit 4 ⟨[⟨3, 4⟩, ⟨7, 100⟩], [], 5⟩).1 (by decide)

theorem allocate_size_ge (n : Nat) (s : FramePool) :
    n + blockHeaderSize ≤ (framePoolAllocate n s).1.size := by
  rcases hpl : poolPop n s.localFree with _ | ⟨b, l'⟩
  · rcases hpg : poolPop n s.globalFree with _ | ⟨c, g'⟩
    · simp [framePoolAllocate, hpl, hpg]
    · simpa [framePoolAllocate, hpl, hpg] using poolPop_size hpg
  · simpa [framePoolAllocate, hpl] using poolPop_size hpl

/-- C7: a block obtained from the pool with request size n, deallocated
(entering the freeing thread's local tier), and requested again on the same
thread with m ≤ n is served from the local free list — never from the
underlying general allocator — and the pool returns to its previous state. -/
theorem allocate_cons_fit {m : Nat} {b : Block} (s' : FramePool)
    (hfit : m + blockHeaderSize ≤ b.size) :
    framePoolAllocate m { s' with localFree := b :: s'.localFree }
      = (b, AllocSource.fromLocal, s') := by
  have hpop : poolPop m (b :: s'.localFree) = some (b, s'.localFree) := by
    rw [poolPop, if_pos hfit]
  simp [framePoolAllocate, hpop]

theorem framePool_roundtrip (n m k : Nat) (s : FramePool) (h : m ≤ n) :
    framePoolAllocate m
        (framePoolDeallocate (framePoolAllocate n s).1 k
          (framePoolAllocate n s).2.2)
      = ((framePoolAllocate n s).1, AllocSource.fromLocal,
          (framePoolAllocate n s).2.2) :=
  allocate_cons_fit _
    (le_trans (Nat.add_le_add_right h blockHeaderSize) (allocate_size_ge n s))

theorem framePool_roundtrip_witness :
    framePoolAllocate 3
        (framePoolDeallocate (framePoolAllocate 5 ⟨[], [], 0⟩).1 0
          (framePoolAllocate 5 ⟨[], [], 0⟩).2.2)
      = ((framePoolAllocate 5 ⟨[], [], 0⟩).1, AllocSource.fromLocal,
          (framePoolAllocate 5 ⟨[], [], 0⟩).2.2) :=
  framePool_roundtrip 5 3 0 ⟨[], [], 0⟩ (by decide)

inductive PoolOp
  | allocOp (n : Nat)
  | deallocOp (b : Block) (n : Nat)

/-- Run a sequence of pool operations (the pool's whole interface). -/
def runPool : List PoolOp → FramePool → FramePool
  | [], s => s
  | PoolOp.allocOp n :: ops, s => runPool ops (framePoolAllocate n s).2.2
  | PoolOp.deallocOp b n :: ops, s => runPool ops (framePoolDeallocate b n s)

theorem allocate_global_sublist (n : Nat) (s : FramePool) :
    (framePoolAllocate n s).2.2.globalFree.Sublist s.globalFree := by
  rcases hpl : poolPop n s.localFree with _ | ⟨b, l'⟩
  · rcases hpg : poolPop n s.globalFree with _ | ⟨c, g'⟩
    · simp [framePoolAllocate, hpl, hpg]
    · simpa [framePoolAllocate, hpl, hpg] using poolPop_sublist hpg
  · simp [framePoolAllocate, hpl]

theorem runPool_global_sublist :
    ∀ (ops : List PoolOp) (s : FramePool),
      (runPool ops s).globalFree.Sublist s.globalFree
  | [], _ => List.Sublist.refl _
  | PoolOp.allocOp n :: ops, s =>
      (runPool_global_sublist ops _).trans (allocate_global_sublist n s)
  | PoolOp.deallocOp b n :: ops, s =>
      runPool_global_sublist ops (framePoolDeallocate b n s)

/-- C8: every deallocation pushes the freed block onto the freeing thread's
local tier and never onto the global tier, so the global tier only ever
shrinks: a block absent from the global tier — in particular one that
allocate removed from it — is never observed in the global tier again in
any subsequent state of the pool. -/
theorem framePool_one_way_migration :
    (∀ (b : Block) (n : Nat) (s : FramePool),
        (framePoolDeallocate b n s).localFree = b :: s.localFree ∧
          (framePoolDeallocate b n s).globalFree = s.globalFree)
    ∧ (∀ (ops : List PoolOp) (s : FramePool) (x : Block),
        x ∉ s.globalFree → x ∉ (runPool ops s).globalFree) :=
  ⟨fun _ _ _ => ⟨rfl, rfl⟩,
    fun ops s _ hx hmem => hx ((runPool_global_sublist ops s).mem hmem)⟩

theorem framePool_one_way_migration_witness :
    (⟨9, 9⟩ : Block) ∉
      (runPool [PoolOp.allocOp 1, PoolOp.deallocOp ⟨0, 17⟩ 1]
        ⟨[], [⟨4, 40⟩], 0⟩).globalFree :=
  framePool_one_way_migration.2 _ _ ⟨9, 9⟩ (by decide)

/-! ### Single-slot operation cache (bench_cb.hpp, `struct op_cache`)

Cached blocks are identified by their address (a `Nat`); the cache slot is
`ptr_`/`size_`.  `opCacheDeallocate` additionally returns the list of
addresses handed to `::operator delete` (deleting a null pointer is a
no-op and contributes nothing). -/

structure OpCache where
  ptr : Option Nat
  size : Nat
deriving DecidableEq

inductive CbAlloc
  | cached (p : Nat)
  | freshAlloc
deriving DecidableEq

/-- `op_cache::allocate`: if a block is cached and its recorded capacity is
at least `n`, return it and clear the slot; otherwise allocate fresh from
`::operator new`, leaving the slot untouched. -/
def opCacheAllocate (n : Nat) (c : OpCache) : CbAlloc × OpCache :=
  match c.ptr with
  | some p =>
      if n ≤ c.size then (CbAlloc.cached p, { c with ptr := none })
      else (CbAlloc.freshAlloc, c)
  | none => (CbAlloc.freshAlloc, c)

/-- `op_cache::deallocate`: if no block is cached or the newly freed block
is at least as large as the cached one, delete the previously cached block
(if any) and cache the new one with size `n`; otherwise delete the new
block and keep the existing cached one. -/
def opCacheDeallocate (p n : Nat) (c : OpCache) : List Nat × OpCache :=
  match c.ptr with
  | none => ([], { ptr := some p, size := n })
  | some q =>
      if c.size ≤ n then ([q], { ptr := some p, size := n })
      else ([p], c)

theorem opCacheAllocate_some {q : Nat} {c : OpCache} (hq : c.ptr = some q)
    (n : Nat) :
    opCacheAllocate n c =
      if n ≤ c.size then (CbAlloc.cached q, { c with ptr := none })
      else (CbAlloc.freshAlloc, c) := by
  unfold opCacheAllocate
  rw [hq]

theorem opCacheAllocate_none {c : OpCache} (hq : c.ptr = none) (n : Nat) :
    opCacheAllocate n c = (CbAlloc.freshAlloc, c) := by
  unfold opCacheAllocate
  rw [hq]

theorem opCacheDeallocate_some {q : Nat} {c : OpCache} (hq : c.ptr = some q)
    (p n : Nat) :
    opCacheDeallocate p n c =
      if c.size ≤ n then ([q], ⟨some p, n⟩) else ([p], c) := by
  unfold opCacheDeallocate
  rw [hq]

theorem opCacheDeallocate_none {c : OpCache} (hq : c.ptr = none) (p n : Nat) :
    opCacheDeallocate p n c = ([], ⟨some p, n⟩) := by
  unfold opCacheDeallocate
  rw [hq]

theorem allocate_hit {c : OpCache} {q : Nat} (hq : c.ptr = some q) {n : Nat}
    (hn : n ≤ c.size) :
    opCacheAllocate n c = (CbAlloc.cached q, { c with ptr := none }) := by
  rw [opCacheAllocate_some hq, if_pos hn]

/-- C3: allocate(n) returns the cached block and clears the slot iff a block
is cached with recorded capacity at least n, otherwise it allocates fresh;
deallocate(p, n) caches p with size n (freeing any previously cached block)
iff no block is cached or n is at least the cached size, otherwise it frees
p and keeps the cached block; consequently for n1 ≤ n2, freeing a block with
size n2 and then requesting n1 is served from the cached block — from that
very block whenever the free actually cached it. -/
theorem opCache_policy :
    (∀ (n : Nat) (c : OpCache) (p : Nat),
        opCacheAllocate n c = (CbAlloc.cached p, { c with ptr := none })
          ↔ c.ptr = some p ∧ n ≤ c.size)
    ∧ (∀ (n : Nat) (c : OpCache),
        (∀ p, c.ptr = some p → c.size < n) →
          opCacheAllocate n c = (CbAlloc.freshAlloc, c))
    ∧ (∀ (p n : Nat) (c : OpCache),
        (opCacheDeallocate p n c).2 = { ptr := some p, size := n }
          ↔ (c.ptr = none ∨ c.size ≤ n))
    ∧ (∀ (p n q : Nat) (c : OpCache), c.ptr = some q → c.size ≤ n →
        opCacheDeallocate p n c = ([q], { ptr := some p, size := n }))
    ∧ (∀ (p n q : Nat) (c : OpCache), c.ptr = some q → n < c.size →
        opCacheDeallocate p n c = ([p], c))
    ∧ (∀ (c : OpCache) (p n1 n2 : Nat), n1 ≤ n2 →
        (∃ q, (opCacheAllocate n1 (opCacheDeallocate p n2 c).2).1
            = CbAlloc.cached q)
        ∧ ((c.ptr = none ∨ c.size ≤ n2) →
            (opCacheAllocate n1 (opCacheDeallocate p n2 c).2).1
              = CbAlloc.cached p)) := by
  refine ⟨?_, ?_, ?_, ?_, ?_, ?_⟩
  · intro n c p
    constructor
    · intro h
      rcases hq : c.ptr with _ | q
      · rw [opCacheAllocate_none hq] at h
        exact absurd (congrArg Prod.fst h) (by simp)
      · rw [opCacheAllocate_some hq] at h
        by_cases hle : n ≤ c.size
        · rw [if_pos hle] at h
          have hqp : q = p := by
            have := congrArg Prod.fst h
            simpa using this
          exact ⟨by rw [hqp], hle⟩
        · rw [if_neg hle] at h
          exact absurd (congrArg Prod.fst h) (by simp)
    · rintro ⟨hp, hle⟩
      exact allocate_hit hp hle
  · intro n c hbig
    rcases hq : c.ptr with _ | q
    · exact opCacheAllocate_none hq n
    · rw [opCacheAllocate_some hq, if_neg (Nat.not_le.mpr (hbig q hq))]
  · intro p n c
    rcases hq : c.ptr with _ | q
    · rw [opCacheDeallocate_none hq]
      simp [hq]
    · rw [opCacheDeallocate_some hq]
      by_cases hle : c.size ≤ n
      · rw [if_pos hle]
        simp [hq, hle]
      · rw [if_neg hle]
        constructor
        · intro hrec
          dsimp only at hrec
          rw [hrec] at hle
          exact absurd le_rfl hle
        · rintro (hc | hc)
          · cases hc
          · exact absurd hc hle
  · intro p n q c hq hle
    rw [opCacheDeallocate_some hq, if_pos hle]
  · intro p n q c hq hlt
    rw [opCacheDeallocate_some hq, if_neg (Nat.not_le.mpr hlt)]
  · intro c p n1 n2 h12
    rcases hq : c.ptr with _ | q
    · have hd : (opCacheDeallocate p n2 c).2 = ⟨some p, n2⟩ := by
        rw [opCacheDeallocate_none hq]
      have hhit := allocate_hit (c := (⟨some p, n2⟩ : OpCache)) rfl
        (n := n1) h12
      rw [hd, hhit]
      exact ⟨⟨p, rfl⟩, fun _ => rfl⟩
    · by_cases hle : c.size ≤ n2
      · have hd : (opCacheDeallocate p n2 c).2 = ⟨some p, n2⟩ := by
          rw [opCacheDeallocate_some hq, if_pos hle]
        have hhit := allocate_hit (c := (⟨some p, n2⟩ : OpCache)) rfl
          (n := n1) h12
        rw [hd, hhit]
        exact ⟨⟨p, rfl⟩, fun _ => rfl⟩
      · have hd : (opCacheDeallocate p n2 c).2 = c := by
          rw [opCacheDeallocate_some hq, if_neg hle]
        have hn1 : n1 ≤ c.size := by omega
        rw [hd, allocate_hit hq hn1]
        refine ⟨⟨q, rfl⟩, fun hc => ?_⟩
        rcases hc with hc | hc
        · cases hc
        · exact absurd hc hle

theorem opCache_policy_witness :
    opCacheAllocate 3 ⟨some 11, 8⟩ = (CbAlloc.cached 11, ⟨none, 8⟩)
      ∧ (opCacheAllocate 2 (opCacheDeallocate 21 6 ⟨none, 0⟩).2).1
          = CbAlloc.cached 21 :=
  ⟨(opCache_policy.1 3 ⟨some 11, 8⟩ 11).mpr ⟨rfl, by decide⟩,
    ((opCache_policy.2.2.2.2.2 ⟨none, 0⟩ 21 2 6 (by decide)).2 (Or.inl rfl))⟩

/-! ### Unified executor (bench.hpp, `io_context::executor`)

Work items and callbacks are identified by `Nat` ids; `queue` is the
pending `work_queue` contents (as the FIFO list the pointer queue refines,
see `workQueue_fifo`) and `executed` is the ordered log of invocations. -/

structure ExecState where
  queue : List Nat
  executed : List Nat
deriving DecidableEq

/-- `executor::dispatch(coro h)`: `return h;` — the token is handed back
unchanged for symmetric transfer; nothing is resumed and the context is not
touched. -/
def exDispatchCoro (h : Nat) (s : ExecState) : Nat × ExecState :=
  (h, s)

/-- `executor::dispatch(F&& f)` for a plain invocable: invoke it
immediately, synchronously, in the caller's stack. -/
def exDispatchCallback (f : Nat) (s : ExecState) : ExecState :=
  { s with executed := s.executed ++ [f] }

/-- `executor::post`: `ctx_->q_.push(w)` — enqueue only. -/
def exPost (w : Nat) (s : ExecState) : ExecState :=
  { s with queue := s.queue ++ [w] }

/-- `io_context::run`: `while(!q_.empty()) (*q_.pop())();` — pop one item,
execute it (which may post further items, modelled by `spawns`), re-check
emptiness, repeat.  Fuel makes the loop a total function. -/
def ioRun (spawns : Nat → List Nat) : Nat → ExecState → ExecState
  | 0, s => s
  | fuel + 1, s =>
      match s.queue with
      | [] => s
      | w :: rest =>
          ioRun spawns fuel
            { queue := rest ++ spawns w, executed := s.executed ++ [w] }

theorem ioRun_no_spawn :
    ∀ (q e : List Nat) (fuel : Nat), q.length ≤ fuel →
      ioRun (fun _ => []) fuel ⟨q, e⟩ = ⟨[], e ++ q⟩
  | [], e, 0, _ => by simp [ioRun]
  | [], e, fuel + 1, _ => by simp [ioRun]
  | w :: rest, e, fuel + 1, hle => by
      rw [ioRun]
      dsimp only
      rw [List.append_nil, ioRun_no_spawn rest (e ++ [w]) fuel (by simpa using hle)]
      simp

/-- C6: dispatch on a coroutine control-transfer token returns that token
unchanged without resuming it or touching the queue; dispatch on a plain
invocable invokes it immediately, synchronously, exactly once in the
caller's stack; post(item) never executes the item — it only enqueues it —
and the item runs only when run() later pops it, in FIFO position. -/
theorem executor_contract :
    (∀ (h : Nat) (s : ExecState), exDispatchCoro h s = (h, s))
    ∧ (∀ (f : Nat) (s : ExecState),
        (exDispatchCallback f s).executed = s.executed ++ [f] ∧
          (exDispatchCallback f s).queue = s.queue)
    ∧ (∀ (w : Nat) (s : ExecState),
        (exPost w s).executed = s.executed ∧
          (exPost w s).queue = s.queue ++ [w])
    ∧ (∀ (w : Nat) (s : ExecState) (fuel : Nat),
        (exPost w s).queue.length ≤ fuel →
          ioRun (fun _ => []) fuel ⟨(exPost w s).queue, []⟩
            = ⟨[], s.queue ++ [w]⟩) := by
  refine ⟨fun _ _ => rfl, fun _ _ => ⟨rfl, rfl⟩, fun _ _ => ⟨rfl, rfl⟩, ?_⟩
  intro w s fuel hfuel
  rw [ioRun_no_spawn _ _ fuel hfuel]
  simp [exPost]

theorem executor_contract_witness :
    ioRun (fun _ => []) 3 ⟨(exPost 2 ⟨[0, 1], []⟩).queue, []⟩
      = ⟨[], [0, 1] ++ [2]⟩ :=
  executor_contract.2.2.2 2 ⟨[0, 1], []⟩ 3 (by decide)

/-! ### Coroutine owner lifecycle (bench_co_detail.hpp, `root_task`) -/

inductive LifeEvent
  | bodyStep (i : Nat)
  | frameDestroy (h : Nat)
deriving DecidableEq

/-- `root_task::promise_type::final_suspend()`'s awaiter: `await_suspend(h)`
destroys the frame (`h.destroy()`) and returns `std::noop_coroutine()`
(modelled `none`): nothing is resumed afterwards. -/
def finalSuspendStep (h : Nat) : List LifeEvent × Option Nat :=
  ([LifeEvent.frameDestroy h], none)

/-- The owner: `h_` is the coroutine handle, or `none` once released. -/
structure RootTask where
  handle : Option Nat

/-- `root_task::release()`: `h_ = nullptr`. -/
def RootTask.release (_t : RootTask) : RootTask := ⟨none⟩

/-- `~root_task()`: `if(h_) h_.destroy();`. -/
def rootTaskDtorEvents (t : RootTask) : List LifeEvent :=
  match t.handle with
  | some h => [LifeEvent.frameDestroy h]
  | none => []

/-- Normal completion of a coroutine owned through the wrapper: the body
runs its remaining instructions, control reaches `final_suspend`, whose
awaiter destroys the frame and transfers to noop; the owner, released at
completion, is destroyed afterwards. -/
def normalCompletionTrace (body : List Nat) (h : Nat) (t : RootTask) :
    List LifeEvent :=
  body.map LifeEvent.bodyStep ++ (finalSuspendStep h).1
    ++ rootTaskDtorEvents t.release

/-- Early teardown: the owner is destroyed while the computation is still
suspended; `~root_task()` performs the destruction. -/
def earlyDestroyTrace (h : Nat) : List LifeEvent :=
  rootTaskDtorEvents ⟨some h⟩

/-- C2: for every coroutine started through the owner wrapper, the frame is
destroyed exactly once: on normal completion the final-suspend step
destroys the frame itself, after the computation's last body instruction,
resumes nothing (noop transfer), and the released owner contributes no
second destruction; on early destruction of a still-suspended computation
the owner's destructor performs the single destruction. -/
theorem frame_destroyed_once (body : List Nat) (h : Nat) (t : RootTask) :
    normalCompletionTrace body h t
        = body.map LifeEvent.bodyStep ++ [LifeEvent.frameDestroy h]
    ∧ (normalCompletionTrace body h t).count (LifeEvent.frameDestroy h) = 1
    ∧ (finalSuspendStep h).2 = none
    ∧ earlyDestroyTrace h = [LifeEvent.frameDestroy h] := by
  have htr : normalCompletionTrace body h t
      = body.map LifeEvent.bodyStep ++ [LifeEvent.frameDestroy h] := by
    simp [normalCompletionTrace, finalSuspendStep, rootTaskDtorEvents,
      RootTask.release]
  have h0 : (body.map LifeEvent.bodyStep).count (LifeEvent.frameDestroy h)
      = 0 := by
    rw [List.count_eq_zero]
    intro hmem
    obtain ⟨i, _, hcon⟩ := List.mem_map.mp hmem
    cases hcon
  refine ⟨htr, ?_, rfl, rfl⟩
  rw [htr, List.count_append, h0]
  simp

/-! ### Promise allocator mixin and frame header
(bench_co_detail.hpp, `frame_pool::promise_allocator`) -/

/-- The header written ahead of every coroutine frame: a type-erased
deallocation function and the context pointer identifying the allocator
instance.  The lambda generated for allocator type `A` performs
`static_cast<A*>(ctx)->deallocate(p, n)`, so both fields are modelled by
the id of the allocator instance they route the free to. -/
structure FrameHeader where
  dealloc : Nat
  ctx : Nat
deriving DecidableEq

/-- `sizeof(promise_allocator::header)`: a function pointer plus an object
pointer, 8 bytes each on the benchmark's 64-bit target. -/
def headerSize : Nat := 16

structure FrameWorld where
  headers : Nat → Option FrameHeader
  allocCalls : List (Nat × Nat)
  deallocCalls : List (Nat × Nat × Nat × Nat)

/-- `promise_allocator::allocate_with(size, alloc)`: request
`size + sizeof(header)` bytes from the chosen allocator (which returns the
raw block address `raw`), write the header at `raw` recording the
deallocation function and the allocator instance, and hand the coroutine
`raw + sizeof(header)` — the usable region past the header. -/
def allocateWith (size allocId raw : Nat) (w : FrameWorld) : Nat × FrameWorld :=
  (raw + headerSize,
    { w with
      headers :=
        fun a => if a = raw then some ⟨allocId, allocId⟩ else w.headers a
      allocCalls := w.allocCalls ++ [(allocId, size + headerSize)] })

/-- `promise_allocator::operator delete(ptr, size)`: step back over the
header, and invoke the recorded function on the recorded allocator context
with the original block pointer and the total size
`size + sizeof(header)`.  Reading an unwritten header is undefined
behaviour, modelled as no call. -/
def promiseDelete (ptr size : Nat) (w : FrameWorld) : FrameWorld :=
  match w.headers (ptr - headerSize) with
  | some hd =>
      { w with deallocCalls := w.deallocCalls
          ++ [(hd.dealloc, hd.ctx, ptr - headerSize, size + headerSize)] }
  | none => w

inductive CoArg
  | allocArg (id : Nat)
  | plainArg
deriving DecidableEq

/-- Id of the single shared, process-wide `frame_pool::shared()` instance. -/
def sharedPoolId : Nat := 0

/-- Overload resolution of `promise_allocator::operator new` over the
coroutine's arguments: the first argument if it carries a frame allocator,
else the second if it does, else (no overload with arguments is viable)
the plain `operator new(size)` using the shared frame pool. -/
def selectFrameAllocator : List CoArg → Nat
  | [] => sharedPoolId
  | CoArg.allocArg i :: _ => i
  | CoArg.plainArg :: [] => sharedPoolId
  | CoArg.plainArg :: CoArg.allocArg i :: _ => i
  | CoArg.plainArg :: CoArg.plainArg :: _ => sharedPoolId

/-- Frame allocation for a promise with the given coroutine arguments. -/
def promiseNew (size : Nat) (args : List CoArg) (raw : Nat) (w : FrameWorld) :
    Nat × FrameWorld :=
  allocateWith size (selectFrameAllocator args) raw w

/-- C4: every frame goes to the caller-supplied allocator when one appears
among the leading coroutine arguments and to the shared pool otherwise; a
header recording the type-erased deallocation function and the serving
allocator is written immediately before the usable region, the pointer
handed to the coroutine excludes the header, and freeing invokes exactly
the recorded function on the recorded allocator with the original block
pointer (header included) and the total size (frame size plus header
size). -/
theorem promise_allocator_header (size raw : Nat) (args : List CoArg)
    (w : FrameWorld) :
    (promiseNew size args raw w).1 = raw + headerSize
    ∧ (promiseNew size args raw w).2.allocCalls
        = w.allocCalls ++ [(selectFrameAllocator args, size + headerSize)]
    ∧ (promiseNew size args raw w).2.headers raw
        = some ⟨selectFrameAllocator args, selectFrameAllocator args⟩
    ∧ (promiseDelete (promiseNew size args raw w).1 size
          (promiseNew size args raw w).2).deallocCalls
        = (promiseNew size args raw w).2.deallocCalls
            ++ [(selectFrameAllocator args, selectFrameAllocator args, raw,
                  size + headerSize)]
    ∧ selectFrameAllocator [] = sharedPoolId
    ∧ (∀ (i : Nat) (rest : List CoArg),
        selectFrameAllocator (CoArg.allocArg i :: rest) = i)
    ∧ (∀ (i : Nat) (rest : List CoArg),
        selectFrameAllocator (CoArg.plainArg :: CoArg.allocArg i :: rest) = i)
    ∧ (∀ rest : List CoArg,
        selectFrameAllocator (CoArg.plainArg :: CoArg.plainArg :: rest)
          = sharedPoolId) := by
  refine ⟨rfl, rfl, ?_, ?_, rfl, fun i rest => rfl, fun i rest => rfl,
    fun rest => rfl⟩
  · simp [promiseNew, allocateWith]
  · have hptr : raw + headerSize - headerSize = raw := by omega
    simp [promiseDelete, promiseNew, allocateWith, hptr]

/-! ### Callback operation chains (bench_cb.hpp) -/

inductive ChainItem
  | ioWork (handler : ChainItem)
  | readOp (count : Nat) (handler : ChainItem)
  | requestOp (count : Nat) (handler : ChainItem)
  | sessionOp (count : Nat) (handler : ChainItem)
  | finalHandler
deriving DecidableEq

structure ChainState where
  queue : List ChainItem
  ioCount : Nat
  handlerRuns : Nat
  ioAtHandler : Option Nat
deriving DecidableEq

/-- Modelled from the spec: the logical-I/O completion counter's increment
site (the `g_io_count` declared in bench.cpp is bumped outside the
extracted sources, once per leaf `io_op` execution) and the 1000-step
`async_session` chain (`cb::async_session` is not among the extracted
sources; per the driver's comments it invokes the 100-step `async_request`
10 times).  Everything else mirrors bench_cb.hpp: `io_op::operator()`
dispatches its handler immediately after completing one logical I/O;
`read_op::operator()` posts a leaf `io_op` carrying itself with an
incremented count while `count_++ < 10` and otherwise dispatches its
handler; `request_op::operator()` starts a fresh `read_op` chain carrying
itself while `count_++ < 10` and otherwise dispatches its handler; the
final handler records how many logical I/Os had completed when it first
ran. -/
def invokeChain : Nat → ChainItem → ChainState → ChainState
  | 0, _, s => s
  | fuel + 1, item, s =>
      match item with
      | ChainItem.ioWork h =>
          invokeChain fuel h { s with ioCount := s.ioCount + 1 }
      | ChainItem.readOp c h =>
          if c < 10 then
            { s with queue :=
                s.queue ++ [ChainItem.ioWork (ChainItem.readOp (c + 1) h)] }
          else invokeChain fuel h s
      | ChainItem.requestOp c h =>
          if c < 10 then
            invokeChain fuel
              (ChainItem.readOp 0 (ChainItem.requestOp (c + 1) h)) s
          else invokeChain fuel h s
      | ChainItem.sessionOp c h =>
          if c < 10 then
            invokeChain fuel
              (ChainItem.requestOp 0 (ChainItem.sessionOp (c + 1) h)) s
          else invokeChain fuel h s
      | ChainItem.finalHandler =>
          { s with
            handlerRuns := s.handlerRuns + 1
            ioAtHandler :=
              match s.ioAtHandler with
              | some v => some v
              | none => some s.ioCount }

/-- `io_context::run` over chain items: pop one work item, invoke it
(`ifuel` bounds the depth of one invocation's nested dispatches), repeat
until the queue is observed empty. -/
def runChain (ifuel : Nat) : Nat → ChainState → ChainState
  | 0, s => s
  | fuel + 1, s =>
      match s.queue with
      | [] => s
      | it :: rest =>
          runChain ifuel fuel (invokeChain ifuel it { s with queue := rest })

def chainStart : ChainState := ⟨[], 0, 0, none⟩

theorem runChain_of_empty (ifuel fuel : Nat) (s : ChainState)
    (h : s.queue = []) : runChain ifuel fuel s = s := by
  cases fuel with
  | zero => rfl
  | succ fuel =>
      simp only [runChain]
      rw [h]

theorem runChain_add (ifuel : Nat) :
    ∀ (a b : Nat) (s : ChainState),
      runChain ifuel (a + b) s = runChain ifuel b (runChain ifuel a s)
  | 0, b, s => by rw [Nat.zero_add]; rfl
  | a + 1, b, s => by
      rw [Nat.succ_add]
      rcases hq : s.queue with _ | ⟨it, rest⟩
      · rw [runChain_of_empty ifuel (a + b + 1) s hq,
          runChain_of_empty ifuel (a + 1) s hq,
          runChain_of_empty ifuel b s hq]
      · simp only [runChain]
        rw [hq]
        exact runChain_add ifuel a b _

/-- The state at a 100-leaf segment boundary of the session run: the queue
holds the single pending leaf carrying the continuation for session
iteration `k`, with `io` logical completions counted so far. -/
def qstate (k io : Nat) : ChainState :=
  ⟨[ChainItem.ioWork (ChainItem.readOp 1 (ChainItem.requestOp 1
      (ChainItem.sessionOp k ChainItem.finalHandler)))], io, 0, none⟩

set_option maxRecDepth 8000 in
/-- C9: a 1-step, 10-step, 100-step, and 1000-step operation chain invoke
the logical I/O completion exactly 1, 10, 100, and 1000 times respectively
before delivering the final handler exactly once: the posted leaf completes
once; read_op invokes the leaf 10 times before dispatching its handler
once; request_op invokes the 10-step chain 10 times (100 leaves); the
session chain yields 1000 leaves.  In each final state the queue is
drained, the handler ran once, and all completions preceded it. -/
theorem chain_multiplicity :
    runChain 20 20
        { chainStart with queue := [ChainItem.ioWork ChainItem.finalHandler] }
      = ⟨[], 1, 1, some 1⟩
    ∧ runChain 20 20
        (invokeChain 20 (ChainItem.readOp 0 ChainItem.finalHandler)
          chainStart)
      = ⟨[], 10, 1, some 10⟩
    ∧ runChain 20 110
        (invokeChain 20 (ChainItem.requestOp 0 ChainItem.finalHandler)
          chainStart)
      = ⟨[], 100, 1, some 100⟩
    ∧ runChain 20 1010
        (invokeChain 20 (ChainItem.sessionOp 0 ChainItem.finalHandler)
          chainStart)
      = ⟨[], 1000, 1, some 1000⟩ := by
  refine ⟨by decide, by decide, by decide, ?_⟩
  have h0 : invokeChain 20 (ChainItem.sessionOp 0 ChainItem.finalHandler)
      chainStart = qstate 1 0 := by decide
  have h1 : runChain 20 100 (qstate 1 0) = qstate 2 100 := by decide
  have h2 : runChain 20 100 (qstate 2 100) = qstate 3 200 := by decide
  have h3 : runChain 20 100 (qstate 3 200) = qstate 4 300 := by decide
  have h4 : runChain 20 100 (qstate 4 300) = qstate 5 400 := by decide
  have h5 : runChain 20 100 (qstate 5 400) = qstate 6 500 := by decide
  have h6 : runChain 20 100 (qstate 6 500) = qstate 7 600 := by decide
  have h7 : runChain 20 100 (qstate 7 600) = qstate 8 700 := by decide
  have h8 : runChain 20 100 (qstate 8 700) = qstate 9 800 := by decide
  have h9 : runChain 20 100 (qstate 9 800) = qstate 10 900 := by decide
  have h10 : runChain 20 110 (qstate 10 900) = ⟨[], 1000, 1, some 1000⟩ := by
    decide
  rw [h0,
    show (1010 : Nat) = 100 + 910 from rfl, runChain_add, h1,
    show (910 : Nat) = 100 + 810 from rfl, runChain_add, h2,
    show (810 : Nat) = 100 + 710 from rfl, runChain_add, h3,
    show (710 : Nat) = 100 + 610 from rfl, runChain_add, h4,
    show (610 : Nat) = 100 + 510 from rfl, runChain_add, h5,
    show (510 : Nat) = 100 + 410 from rfl, runChain_add, h6,
    show (410 : Nat) = 100 + 310 from rfl, runChain_add, h7,
    show (310 : Nat) = 100 + 210 from rfl, runChain_add, h8,
    show (210 : Nat) = 100 + 110 from rfl, runChain_add, h9]
  exact h10

end Bench
